import Mathlib

/-!
Verification of the layout/color/label core of `src/onion_rings/onion_rings.py`
(`plot_onion_rings`).

Modelling conventions (shallow embedding):

* The input tensor `data_array` (an L-dimensional numpy array of shape
  `(n_0, ..., n_{L-1})`) is represented by its shape `shape : List ℕ` and its
  C-order (row-major) flattening `data : List ℚ`.  Summing a tensor over its
  last axis corresponds exactly to summing consecutive blocks of the flat
  list, which is what `chunkSums` does.
* Python floats are modelled by exact rationals `ℚ`; `0.4` is `2/5`, `0.5` is
  `1/2`.  All of the code's arithmetic on these values is field arithmetic.
* Angles: line 117 multiplies the normalized values by `2*np.pi`.  Since π is
  irrational it cannot live in `ℚ`; every angle produced by the code is an
  exact rational multiple of π, so an angle is represented by its coefficient
  of π (a list entry `q` stands for the angle `q * π` radians).  Theorem
  statements bridge back to real angles by multiplying with `Real.pi`.
* Python exceptions (IndexError from an out-of-range list subscript) are
  modelled by `Option`: `none` means the original program raises.
-/

namespace OnionRings

/-- Line 116: `np.sum(data_array)`, the grand total of all leaf values. -/
def totalSum (data : List ℚ) : ℚ := data.sum

/-- Line 116: `values_normalized = data_array/np.sum(data_array)`.
There is no zero-total guard in the code; in this exact model `v / 0 = 0`
(numpy produces `nan`/`inf` instead — either way no error is raised). -/
def values_normalized (data : List ℚ) : List ℚ :=
  data.map (fun v => v / totalSum data)

/-- Line 117: `values_in_angles = values_normalized*2*np.pi`, in units of π:
an entry `q` stands for `q * π` radians, so the factor `2 * π` becomes `* 2`. -/
def values_in_angles (data : List ℚ) : List ℚ :=
  (values_normalized data).map (fun q => q * 2)

/-- Summing a tensor over its last axis, on C-order flat lists: sum each
consecutive block of `b` entries (`b` = size of the last dimension). -/
def chunkSums {α : Type} [AddCommMonoid α] (b : ℕ) : List α → List α
  | [] => []
  | x :: t =>
    if _h : b = 0 then []
    else ((x :: t).take b).sum :: chunkSums b ((x :: t).drop b)
termination_by l => l.length
decreasing_by
  simp only [List.length_drop, List.length_cons]
  omega

/-- Lines 127-147: starting from the leaf-level flat list `base` (the tensor
with all `shape.length` axes), repeatedly sum away the last axis until only
axes `0..k` remain.  `aggregateToLevel shape base k` is the flat form of the
level-`k` tensor (`.sum(axis=level+1)` at each step of the loop). -/
def aggregateToLevel (shape : List ℕ) (base : List ℚ) (k : ℕ) : List ℚ :=
  if h : k + 1 < shape.length then
    chunkSums (shape.getD (k + 1) 0) (aggregateToLevel shape base (k + 1))
  else base
termination_by shape.length - k
decreasing_by omega

/-- Lines 129/136/144: `width_values_at_level[level]`, the flattened
`hierachical_values_in_angle` (in units of π). -/
def width_values_at_level (shape : List ℕ) (data : List ℚ) (k : ℕ) : List ℚ :=
  aggregateToLevel shape (values_in_angles data) k

/-- Lines 130/137/145: `original_values_at_level[level]`, the flattened
level-`k` aggregated raw values. -/
def original_values_at_level (shape : List ℕ) (data : List ℚ) (k : ℕ) : List ℚ :=
  aggregateToLevel shape data k

/-- Lines 131/138/147: `percent_values_at_level[level]`, the flattened
level-`k` aggregation of the normalized values (fractions of the total). -/
def percent_values_at_level (shape : List ℕ) (data : List ℚ) (k : ℕ) : List ℚ :=
  aggregateToLevel shape (values_normalized data) k

/-- Lines 132-133/139-141: fraction of the immediate parent.  The level-`k`
tensor is divided elementwise by its sums over its own last axis (broadcast
via `np.expand_dims`): flat entry `i` is divided by the sum of its block of
`shape[k]` consecutive entries. -/
def rel_percent_values_at_level (shape : List ℕ) (data : List ℚ) (k : ℕ) : List ℚ :=
  let ok := original_values_at_level shape data k
  let outer := chunkSums (shape.getD k 0) ok
  (List.range ok.length).map (fun i => ok.getD i 0 / outer.getD (i / shape.getD k 0) 0)

/-- Running prefix sums starting from accumulator `acc` (`np.cumsum`). -/
def cumsumFrom (acc : ℚ) : List ℚ → List ℚ
  | [] => []
  | x :: t => (acc + x) :: cumsumFrom (acc + x) t

/-- Line 143: `np.cumsum(np.append(0, widths[:-1]))` — the start angle of
segment `i` is the sum of the widths of segments `0..i-1` (units of π). -/
def edge_values_at_level (shape : List ℕ) (data : List ℚ) (k : ℕ) : List ℚ :=
  cumsumFrom 0 (0 :: (width_values_at_level shape data k).dropLast)

/-- Lines 171-175: the anchor angle of segment `i` (units of π): midpoint of
its two edges, the last segment closing the circle at `2π` (coefficient 2). -/
def anchor_angle (edges : List ℚ) (i : ℕ) : ℚ :=
  if i < edges.length - 1 then (edges.getD i 0 + edges.getD (i + 1) 0) * (1/2)
  else (edges.getD (edges.length - 1) 0 + 2) * (1/2)

/-- Lines 176-179.  Input: the anchor angle as a multiple of π (the code's
`angle`, in radians, is `a * π`).  Output `(c, d)` stands for the number
`c * π + d` that the code passes as the text rotation: `0` when
`angle > np.pi`, and otherwise `angle + 180` — the literal `180` added to the
radian-valued `angle`. -/
def text_rotation (a : ℚ) : ℚ × ℚ :=
  if 1 < a then (0, 0) else (a, 180)

/-- Lines 182/184: `labels[level][np.mod(i, NUMBER_ITEMS_PER_LEVEL[level])]`.
The modulus is the level's branching factor `n_level = shape[level]`, and an
out-of-range subscript of the label list is a Python `IndexError` (`none`). -/
def label_for (labels_k : List String) (n_level : ℕ) (i : ℕ) : Option String :=
  labels_k[i % n_level]?

/-- Modelled from the claim's wording (for comparison with `label_for`):
`labels[k][i mod len(labels[k])]`, cyclic in the label-list length. -/
def label_for_claim (labels_k : List String) (i : ℕ) : Option String :=
  labels_k[i % labels_k.length]?

/-- Lines 180-185: the label record emitted for segment `i` of level `k`
(`none` when no label is printed).  The text is modelled structurally as
(category label, displayed fraction, raw value); the emission condition is
line 180: `percent_values_at_level[level][i] > plot_threshold`, and `relp`
(the `rel_percent` flag) only selects which fraction is displayed. -/
def segmentLabel (shape : List ℕ) (data : List ℚ) (labels : List (List String))
    (t : ℚ) (relp : Bool) (k i : ℕ) : Option (String × ℚ × ℚ) :=
  match (percent_values_at_level shape data k)[i]? with
  | none => none
  | some p =>
    if t < p then
      match label_for (labels.getD k []) (shape.getD k 0) i,
            (if relp then (rel_percent_values_at_level shape data k)[i]?
             else (percent_values_at_level shape data k)[i]?),
            (original_values_at_level shape data k)[i]? with
      | some nm, some shown, some ov => some (nm, shown, ov)
      | _, _, _ => none
    else none

/-- Line 77: `low_alpha_range = 0.4`. -/
def low_alpha_range : ℚ := 2/5

/-- Lines 87-88: `new_alphas = alpha_range[level-1][i] - delta*np.arange(1, nb_items+2)`
with `delta = (a - b)/(nb_items+1)` for the boundary pair `(a, b)`. -/
def newAlphas (nb : ℕ) (a b : ℚ) : List ℚ :=
  (List.range (nb + 1)).map (fun j : ℕ => a - ((a - b) / ((nb : ℚ) + 1)) * ((j : ℚ) + 1))

/-- Lines 84-91, the inner `for i in np.arange(0, len(alpha_range[level-1]))`
loop over one boundary list.  Each element `a` with `a > low_alpha_range` is
split against the NEXT element `b`; reading past the end of the list
(`alpha_range[level-1][i+1]` when `a` is the last element) is an IndexError
(`none`).  Returns (lists appended to `alpha_range`, this level's emitted
`level_alpha` values — `new_alphas[0:-1]` per split, in order). -/
def processBoundaries (nb : ℕ) : List ℚ → Option (List (List ℚ) × List ℚ)
  | [] => some ([], [])
  | [a] => if low_alpha_range < a then none else some ([], [])
  | a :: b :: rest =>
    if low_alpha_range < a then
      match processBoundaries nb (b :: rest) with
      | none => none
      | some (ls, emit) =>
        some (newAlphas nb a b :: ls, (newAlphas nb a b).dropLast ++ emit)
    else processBoundaries nb (b :: rest)

/-- The mutable state of lines 76-92: the growing list-of-boundary-lists
`alpha_range` and the per-level emitted alphas `alpha_per_level`. -/
structure AlphaState where
  alpha_range : List (List ℚ)
  alpha_per_level : List (List ℚ)

/-- One iteration of the `for level in np.arange(1, NUMBER_LEVELS)` loop
(lines 81-92): read `alpha_range[level-1]` and `NUMBER_ITEMS_PER_LEVEL[level]`,
process the boundary list, append the new boundary lists to `alpha_range` and
the emitted `level_alpha` to `alpha_per_level`. -/
def alphaLevelStep (shape : List ℕ) (level : ℕ) (s : AlphaState) : Option AlphaState :=
  match s.alpha_range[level - 1]?, shape[level]? with
  | some prev, some nb =>
    match processBoundaries nb prev with
    | some (ls, level_alpha) =>
      some ⟨s.alpha_range ++ ls, s.alpha_per_level ++ [level_alpha]⟩
    | none => none
  | _, _ => none

/-- The outer loop over `level = 1, ..., NUMBER_LEVELS-1`, aborting at the
first IndexError. -/
def runLevels (shape : List ℕ) : List ℕ → AlphaState → Option AlphaState
  | [], s => some s
  | l :: ls, s =>
    match alphaLevelStep shape l s with
    | some s₂ => runLevels shape ls s₂
    | none => none

/-- Lines 76-92: the complete alpha schedule `alpha_per_level` (one list of
opacities per tree level; level 0 is `[1]`), or `none` when the construction
raises an IndexError. -/
def alphaSchedule (shape : List ℕ) : Option (List (List ℚ)) :=
  (runLevels shape (List.range' 1 (shape.length - 1))
    ⟨[[1, low_alpha_range]], [[1]]⟩).map AlphaState.alpha_per_level

/-- Modelled from claim C5's wording, for comparison with `alphaSchedule`:
one level of the claimed scheduler.  Active ranges are explicit `(hi, lo)`
pairs; each range with `hi > 0.4` is split into `nb+1` equal steps, the `nb`
values `hi - delta, ..., hi - nb*delta` are emitted, and each emitted value
`v` spawns the descendant range `(v, lo)` with `lo` the PARENT's low end. -/
def specAlphaLevel (nb : ℕ) : List (ℚ × ℚ) → List (ℚ × ℚ) × List ℚ
  | [] => ([], [])
  | (hi, lo) :: rest =>
    let other := specAlphaLevel nb rest
    if low_alpha_range < hi then
      let emitted := (List.range nb).map
        (fun j : ℕ => hi - ((hi - lo) / ((nb : ℚ) + 1)) * ((j : ℚ) + 1))
      (emitted.map (fun v => (v, lo)) ++ other.1, emitted ++ other.2)
    else other

/-- Modelled from claim C5's wording: iterate `specAlphaLevel` over the
levels, carrying the active ranges forward. -/
def specAlphaGo (shape : List ℕ) : List ℕ → List (ℚ × ℚ) → List (List ℚ)
  | [], _ => []
  | l :: ls, ranges =>
    let step := specAlphaLevel (shape.getD l 0) ranges
    step.2 :: specAlphaGo shape ls step.1

/-- Modelled from claim C5's wording: the claimed alpha schedule. -/
def specAlphaSchedule (shape : List ℕ) : List (List ℚ) :=
  [1] :: specAlphaGo shape (List.range' 1 (shape.length - 1)) [(1, low_alpha_range)]

/-- Structural facts about a finished (or partial) `alpha_per_level` list:
level 0 is `[1]`; every deeper level's alphas exceed the 0.4 floor and the
level has exactly `n_1 * ... * n_k` entries; and the alpha of every node is
strictly below the alpha of its parent (the parent of flat item `i` at
level `k+1` is flat item `i / n_{k+1}` at level `k`).  Proof device. -/
def SchedCore (shape : List ℕ) (per : List (List ℚ)) : Prop :=
  per[0]? = some [1] ∧
  (∀ (k : ℕ) (l : List ℚ), 1 ≤ k → per[k]? = some l →
    (∀ x ∈ l, low_alpha_range < x) ∧ l.length = ((shape.drop 1).take k).prod) ∧
  (∀ (k : ℕ) (lk lk1 : List ℚ) (n : ℕ), per[k]? = some lk → per[k + 1]? = some lk1 →
    shape[k + 1]? = some n → ∀ (i : ℕ) (x : ℚ), lk1[i]? = some x →
    ∃ par, lk[i / n]? = some par ∧ x < par)

/-- Invariant of the alpha construction after levels `1..m` have been
processed: the two state lists have `m+1` entries, the schedule built so far
satisfies `SchedCore`, and the boundary list the next level will read is the
last emitted level followed by exactly the floor `0.4`, strictly
decreasing.  Proof device. -/
def AlphaInv (shape : List ℕ) (m : ℕ) (s : AlphaState) : Prop :=
  s.alpha_per_level.length = m + 1 ∧
  s.alpha_range.length = m + 1 ∧
  SchedCore shape s.alpha_per_level ∧
  ∃ p : List ℚ, s.alpha_per_level[m]? = some p ∧
    s.alpha_range[m]? = some (p ++ [low_alpha_range]) ∧
    (∀ x ∈ p, low_alpha_range < x) ∧
    List.Chain' (fun x y => y < x) (p ++ [low_alpha_range])

/-! ### Basic equations and structural lemmas -/

theorem chunkSums_nil {α : Type} [AddCommMonoid α] (b : ℕ) :
    chunkSums b ([] : List α) = [] := by
  rw [chunkSums.eq_def]

theorem chunkSums_cons {α : Type} [AddCommMonoid α] {b : ℕ} (hb : b ≠ 0)
    (x : α) (t : List α) :
    chunkSums b (x :: t) = ((x :: t).take b).sum :: chunkSums b ((x :: t).drop b) := by
  rw [chunkSums.eq_def]
  simp [hb]

theorem chunkSums_cons_zero {α : Type} [AddCommMonoid α] (x : α) (t : List α) :
    chunkSums 0 (x :: t) = [] := by
  rw [chunkSums.eq_def]
  simp

theorem aggregateToLevel_step {shape : List ℕ} {k : ℕ} (h : k + 1 < shape.length)
    (base : List ℚ) :
    aggregateToLevel shape base k
      = chunkSums (shape.getD (k + 1) 0) (aggregateToLevel shape base (k + 1)) := by
  rw [aggregateToLevel.eq_def]
  simp [h]

theorem aggregateToLevel_base {shape : List ℕ} {k : ℕ} (h : ¬ k + 1 < shape.length)
    (base : List ℚ) :
    aggregateToLevel shape base k = base := by
  rw [aggregateToLevel.eq_def]
  simp [h]

theorem sum_map_of_additive (f : ℚ → ℚ) (hf : ∀ x y, f (x + y) = f x + f y)
    (h0 : f 0 = 0) : ∀ l : List ℚ, (l.map f).sum = f l.sum := by
  intro l
  induction l with
  | nil => simpa using h0.symm
  | cons x t ih => simp [ih, hf]

theorem chunkSums_map (f : ℚ → ℚ) (hf : ∀ x y, f (x + y) = f x + f y)
    (h0 : f 0 = 0) (b : ℕ) :
    ∀ l : List ℚ, chunkSums b (l.map f) = (chunkSums b l).map f := by
  have main : ∀ n (l : List ℚ), l.length ≤ n →
      chunkSums b (l.map f) = (chunkSums b l).map f := by
    intro n
    induction n with
    | zero =>
      intro l hl
      have : l = [] := List.length_eq_zero.mp (Nat.le_zero.mp hl)
      subst this
      simp [chunkSums_nil]
    | succ n ih =>
      intro l hl
      cases l with
      | nil => simp [chunkSums_nil]
      | cons x t =>
        rcases Nat.eq_zero_or_pos b with hb | hb
        · subst hb
          simp [chunkSums_cons_zero]
        · have hb0 : b ≠ 0 := Nat.pos_iff_ne_zero.mp hb
          rw [List.map_cons, chunkSums_cons hb0, chunkSums_cons hb0]
          have htake : (f x :: t.map f).take b = ((x :: t).take b).map f := by
            rw [← List.map_cons, List.map_take]
          have hdrop : (f x :: t.map f).drop b = ((x :: t).drop b).map f := by
            rw [← List.map_cons, List.map_drop]
          rw [htake, hdrop, sum_map_of_additive f hf h0, List.map_cons]
          congr 1
          apply ih
          have h1 : ((x :: t).drop b).length = t.length + 1 - b := by simp
          have h2 : t.length + 1 ≤ n + 1 := by simpa using hl
          omega
  exact fun l => main l.length l le_rfl

theorem aggregateToLevel_map (f : ℚ → ℚ) (hf : ∀ x y, f (x + y) = f x + f y)
    (h0 : f 0 = 0) (shape : List ℕ) :
    ∀ k (base : List ℚ),
      aggregateToLevel shape (base.map f) k = (aggregateToLevel shape base k).map f := by
  have main : ∀ d k (base : List ℚ), shape.length - k ≤ d →
      aggregateToLevel shape (base.map f) k = (aggregateToLevel shape base k).map f := by
    intro d
    induction d with
    | zero =>
      intro k base hk
      have h : ¬ k + 1 < shape.length := by omega
      rw [aggregateToLevel_base h, aggregateToLevel_base h]
    | succ d ih =>
      intro k base hk
      by_cases h : k + 1 < shape.length
      · rw [aggregateToLevel_step h, aggregateToLevel_step h,
          ih (k + 1) base (by omega), chunkSums_map f hf h0]
      · rw [aggregateToLevel_base h, aggregateToLevel_base h]
  exact fun k base => main (shape.length - k) k base le_rfl

theorem chunkSums_sum {b : ℕ} (hb : b ≠ 0) :
    ∀ l : List ℚ, (chunkSums b l).sum = l.sum := by
  have main : ∀ n (l : List ℚ), l.length ≤ n → (chunkSums b l).sum = l.sum := by
    intro n
    induction n with
    | zero =>
      intro l hl
      have : l = [] := List.length_eq_zero.mp (Nat.le_zero.mp hl)
      subst this
      simp [chunkSums_nil]
    | succ n ih =>
      intro l hl
      cases l with
      | nil => simp [chunkSums_nil]
      | cons x t =>
        rw [chunkSums_cons hb, List.sum_cons]
        have h1 : ((x :: t).drop b).length ≤ n := by
          have h2 : t.length + 1 ≤ n + 1 := by simpa using hl
          have h3 : b ≠ 0 := hb
          simp only [List.length_drop, List.length_cons]
          omega
        rw [ih ((x :: t).drop b) h1]
        exact (x :: t).sum_take_add_sum_drop b
  exact fun l => main l.length l le_rfl

theorem aggregateToLevel_sum {shape : List ℕ} (hdims : ∀ d ∈ shape, d ≠ 0) :
    ∀ k (base : List ℚ), (aggregateToLevel shape base k).sum = base.sum := by
  have main : ∀ d k (base : List ℚ), shape.length - k ≤ d →
      (aggregateToLevel shape base k).sum = base.sum := by
    intro d
    induction d with
    | zero =>
      intro k base hk
      rw [aggregateToLevel_base (by omega)]
    | succ d ih =>
      intro k base hk
      by_cases h : k + 1 < shape.length
      · have hmem : shape.getD (k + 1) 0 ∈ shape := by
          rw [List.getD_eq_getElem shape 0 h]
          exact List.getElem_mem h
        rw [aggregateToLevel_step h, chunkSums_sum (hdims _ hmem), ih (k + 1) base (by omega)]
      · rw [aggregateToLevel_base h]
  exact fun k base => main (shape.length - k) k base le_rfl

theorem chunkSums_nonneg {b : ℕ} :
    ∀ l : List ℚ, (∀ x ∈ l, 0 ≤ x) → ∀ y ∈ chunkSums b l, 0 ≤ y := by
  have main : ∀ n (l : List ℚ), l.length ≤ n → (∀ x ∈ l, 0 ≤ x) →
      ∀ y ∈ chunkSums b l, 0 ≤ y := by
    intro n
    induction n with
    | zero =>
      intro l hl _
      have : l = [] := List.length_eq_zero.mp (Nat.le_zero.mp hl)
      subst this
      simp [chunkSums_nil]
    | succ n ih =>
      intro l hl hnn y hy
      cases l with
      | nil => simp [chunkSums_nil] at hy
      | cons x t =>
        rcases Nat.eq_zero_or_pos b with hb | hb
        · subst hb; simp [chunkSums_cons_zero] at hy
        · have hb0 : b ≠ 0 := Nat.pos_iff_ne_zero.mp hb
          rw [chunkSums_cons hb0] at hy
          rcases List.mem_cons.mp hy with hy | hy
          · subst hy
            exact List.sum_nonneg fun z hz => hnn z (List.take_subset _ _ hz)
          · have h1 : ((x :: t).drop b).length ≤ n := by
              have h2 : t.length + 1 ≤ n + 1 := by simpa using hl
              simp only [List.length_drop, List.length_cons]
              omega
            exact ih ((x :: t).drop b) h1
              (fun z hz => hnn z (List.drop_subset _ _ hz)) y hy
  exact fun l => main l.length l le_rfl

theorem aggregateToLevel_nonneg {shape : List ℕ} :
    ∀ k (base : List ℚ), (∀ x ∈ base, 0 ≤ x) →
      ∀ y ∈ aggregateToLevel shape base k, 0 ≤ y := by
  have main : ∀ d k (base : List ℚ), shape.length - k ≤ d → (∀ x ∈ base, 0 ≤ x) →
      ∀ y ∈ aggregateToLevel shape base k, 0 ≤ y := by
    intro d
    induction d with
    | zero =>
      intro k base hk hnn
      rw [aggregateToLevel_base (by omega)]
      exact hnn
    | succ d ih =>
      intro k base hk hnn
      by_cases h : k + 1 < shape.length
      · rw [aggregateToLevel_step h]
        exact chunkSums_nonneg _ (ih (k + 1) base (by omega) hnn)
      · rw [aggregateToLevel_base h]
        exact hnn
  exact fun k base => main (shape.length - k) k base le_rfl

theorem cumsumFrom_length (l : List ℚ) : ∀ acc, (cumsumFrom acc l).length = l.length := by
  induction l with
  | nil => intro acc; rfl
  | cons x t ih => intro acc; simp [cumsumFrom, ih]

theorem cumsumFrom_getElem (l : List ℚ) :
    ∀ acc i e, (cumsumFrom acc l)[i]? = some e → e = acc + (l.take (i + 1)).sum := by
  induction l with
  | nil =>
    intro acc i e he
    simp [cumsumFrom] at he
  | cons x t ih =>
    intro acc i e he
    cases i with
    | zero =>
      simp [cumsumFrom] at he
      simp [← he]
    | succ i =>
      rw [cumsumFrom] at he
      simp only [List.getElem?_cons_succ] at he
      rw [ih (acc + x) i e he]
      simp [add_assoc]

theorem cumsumFrom_chain (l : List ℚ) (hnn : ∀ x ∈ l, 0 ≤ x) :
    ∀ acc, List.Chain' (· ≤ ·) (cumsumFrom acc l) := by
  induction l with
  | nil => intro acc; simp [cumsumFrom]
  | cons x t ih =>
    intro acc
    rw [cumsumFrom]
    rw [List.chain'_cons']
    constructor
    · intro b hb
      cases t with
      | nil => simp [cumsumFrom] at hb
      | cons y t2 =>
        simp [cumsumFrom] at hb
        have hy : 0 ≤ y := hnn y (by simp)
        subst hb
        linarith
    · exact ih (fun z hz => hnn z (List.mem_cons_of_mem x hz)) (acc + x)

/-! ### The per-level lists as images of the aggregated raw values -/

theorem values_in_angles_eq_map (data : List ℚ) :
    values_in_angles data = data.map (fun v => v / totalSum data * 2) := by
  rw [values_in_angles, values_normalized, List.map_map]
  rfl

theorem width_eq_map_original (shape : List ℕ) (data : List ℚ) (k : ℕ) :
    width_values_at_level shape data k
      = (original_values_at_level shape data k).map (fun v => v / totalSum data * 2) := by
  rw [width_values_at_level, original_values_at_level, values_in_angles_eq_map]
  exact aggregateToLevel_map _ (fun x y => by rw [add_div, add_mul]) (by simp) shape k data

theorem percent_eq_map_original (shape : List ℕ) (data : List ℚ) (k : ℕ) :
    percent_values_at_level shape data k
      = (original_values_at_level shape data k).map (fun v => v / totalSum data) := by
  rw [percent_values_at_level, original_values_at_level, values_normalized]
  exact aggregateToLevel_map _ (fun x y => by rw [add_div]) (by simp) shape k data

/-! ### Arithmetic facts about one alpha split -/

theorem newAlphas_length (nb : ℕ) (a b : ℚ) : (newAlphas nb a b).length = nb + 1 := by
  simp [newAlphas]

theorem newAlphas_dropLast (nb : ℕ) (a b : ℚ) :
    (newAlphas nb a b).dropLast
      = (List.range nb).map (fun j : ℕ => a - ((a - b) / ((nb : ℚ) + 1)) * ((j : ℚ) + 1)) := by
  rw [newAlphas, List.range_succ, List.map_append]
  simp

theorem newAlphas_getLast (nb : ℕ) (a b : ℚ) :
    (newAlphas nb a b).getLast? = some b := by
  have hne : ((nb : ℚ) + 1) ≠ 0 := Nat.cast_add_one_ne_zero nb
  rw [newAlphas, List.range_succ, List.map_append, List.map_cons, List.map_nil,
    List.getLast?_concat]
  congr 1
  field_simp

/-! ### Concrete evaluations used by several theorems -/

set_option maxRecDepth 8000

theorem eval_angles_1311 : values_in_angles [1, 3, 1, 1] = [1/3, 1, 1/3, 1/3] := by
  norm_num [values_in_angles, values_normalized, totalSum]

theorem eval_width1_1311 : width_values_at_level [2, 2] [1, 3, 1, 1] 1 = [1/3, 1, 1/3, 1/3] := by
  have h : width_values_at_level [2, 2] [1, 3, 1, 1] 1 = values_in_angles [1, 3, 1, 1] := by
    rw [width_values_at_level, aggregateToLevel_base (by norm_num)]
  rw [h, eval_angles_1311]

theorem eval_width0_1311 : width_values_at_level [2, 2] [1, 3, 1, 1] 0 = [4/3, 2/3] := by
  have h : width_values_at_level [2, 2] [1, 3, 1, 1] 0
      = chunkSums 2 (width_values_at_level [2, 2] [1, 3, 1, 1] 1) := by
    rw [width_values_at_level, aggregateToLevel_step (by norm_num)]
    rfl
  rw [h, eval_width1_1311]
  norm_num [chunkSums]

theorem eval_alphaSchedule_22 : alphaSchedule [2, 2] = some [[1], [4/5, 3/5]] := by
  norm_num [alphaSchedule, runLevels, alphaLevelStep, processBoundaries, newAlphas,
    low_alpha_range, List.range_succ, List.range']

theorem eval_alphaSchedule_121 :
    alphaSchedule [1, 2, 1] = some [[1], [4/5, 3/5], [7/10, 1/2]] := by
  norm_num [alphaSchedule, runLevels, alphaLevelStep, processBoundaries, newAlphas,
    low_alpha_range, List.range_succ, List.range']

theorem eval_specAlphaSchedule_121 :
    specAlphaSchedule [1, 2, 1] = [[1], [4/5, 3/5], [3/5, 1/2]] := by
  norm_num [specAlphaSchedule, specAlphaGo, specAlphaLevel, low_alpha_range,
    List.range_succ, List.range']

theorem eval_alphaSchedule_2222 : alphaSchedule [2, 2, 2, 2] = none := by
  norm_num [alphaSchedule, runLevels, alphaLevelStep, processBoundaries, newAlphas,
    low_alpha_range, List.range_succ, List.range']

/-! ### Claim C9 -/

/-- C9 counterexample: for data `[[1,3],[1,1]]` (shape `(2,2)`, flat
`[1,3,1,1]`, total 6) the level-0 widths are NOT `[π, π]` as the claim
states: the first level-0 width is `2π*4/6 = 4π/3 ≠ π`. -/
theorem scenario_widths_counterexample :
    ¬ ((width_values_at_level [2, 2] [1, 3, 1, 1] 0).map (fun q : ℚ => (q : ℝ) * Real.pi)
        = [Real.pi, Real.pi]) := by
  rw [eval_width0_1311]
  intro h
  simp only [List.map_cons, List.map_nil, List.cons.injEq, and_true] at h
  have h1 : ((4/3 : ℚ) : ℝ) * Real.pi = Real.pi := h.1
  have h2 : ((4/3 : ℚ) : ℝ) = 4/3 := by norm_num
  rw [h2] at h1
  linarith [Real.pi_pos]

/-- C9 amended: for data `[[1,3],[1,1]]` the total is 6 (not 10), so the
level-0 widths are `[2π*4/6, 2π*2/6] = [4π/3, 2π/3]` and the level-1 widths
are `[2π*1/6, 2π*3/6, 2π*1/6, 2π*1/6]`; each level's widths sum to `2π`
(coefficient 2 in units of π). -/
theorem scenario_widths_amended :
    (width_values_at_level [2, 2] [1, 3, 1, 1] 0).map (fun q : ℚ => (q : ℝ) * Real.pi)
        = [2 * Real.pi * (4/6), 2 * Real.pi * (2/6)] ∧
    (width_values_at_level [2, 2] [1, 3, 1, 1] 1).map (fun q : ℚ => (q : ℝ) * Real.pi)
        = [2 * Real.pi * (1/6), 2 * Real.pi * (3/6), 2 * Real.pi * (1/6), 2 * Real.pi * (1/6)] ∧
    (width_values_at_level [2, 2] [1, 3, 1, 1] 0).sum = 2 ∧
    (width_values_at_level [2, 2] [1, 3, 1, 1] 1).sum = 2 := by
  rw [eval_width0_1311, eval_width1_1311]
  refine ⟨?_, ?_, by norm_num, by norm_num⟩
  · simp only [List.map_cons, List.map_nil]
    norm_num
    constructor <;> ring
  · simp only [List.map_cons, List.map_nil]
    norm_num
    refine ⟨by ring, by ring, by ring⟩

/-! ### Claim C2 -/

/-- C2 (code evaluation at the failing input): for the all-zero tensor the
grand total is 0, yet line 116's normalization is performed unguarded and
returns a full-length result — there is no "zero total" error path anywhere
in the code.  In exact arithmetic `v / 0 = 0`; in numpy the same expression
yields NaN widths (a warning, not an exception), so no failure is raised
before rendering either way. -/
theorem zero_total_unguarded :
    totalSum [0, 0, 0, 0] = 0 ∧
    values_normalized [0, 0, 0, 0] = [0, 0, 0, 0] ∧
    (width_values_at_level [2, 2] [0, 0, 0, 0] 0).length = 2 := by
  refine ⟨by norm_num [totalSum], by norm_num [values_normalized, totalSum], ?_⟩
  have h1 : width_values_at_level [2, 2] [0, 0, 0, 0] 1 = values_in_angles [0, 0, 0, 0] := by
    rw [width_values_at_level, aggregateToLevel_base (by norm_num)]
  have h2 : values_in_angles [0, 0, 0, 0] = [0, 0, 0, 0] := by
    norm_num [values_in_angles, values_normalized, totalSum]
  have h3 : width_values_at_level [2, 2] [0, 0, 0, 0] 0
      = chunkSums 2 (width_values_at_level [2, 2] [0, 0, 0, 0] 1) := by
    rw [width_values_at_level, aggregateToLevel_step (by norm_num)]
    rfl
  rw [h3, h1, h2]
  norm_num [chunkSums]

/-! ### Claim C3 -/

/-- C3 counterexample: at anchor angle 0 (≤ π) the code emits the rotation
value `0 + 180 = 180`, not `0 + π`: line 179 adds the literal `180` to the
radian-valued anchor, so the rotation is NOT the anchor plus π in the
anchor's angular units.  `text_rotation a = (c, d)` stands for the value
`c*π + d`. -/
theorem text_rotation_counterexample :
    ((text_rotation 0).1 : ℝ) * Real.pi + ((text_rotation 0).2 : ℝ) ≠ 0 + Real.pi := by
  have h : text_rotation 0 = (0, 180) := by norm_num [text_rotation]
  rw [h]
  intro hc
  norm_num at hc
  have := Real.pi_le_four
  linarith

/-- C3 amended: the rotation is 0 when the anchor angle `a*π` exceeds π
(i.e. `a > 1`), and otherwise it is the anchor angle plus the literal 180
(a degree-valued constant added to the radian-valued anchor), not plus π. -/
theorem text_rotation_amended (a : ℚ) :
    (1 < a → ((text_rotation a).1 : ℝ) * Real.pi + ((text_rotation a).2 : ℝ) = 0) ∧
    (a ≤ 1 → ((text_rotation a).1 : ℝ) * Real.pi + ((text_rotation a).2 : ℝ)
        = (a : ℝ) * Real.pi + 180) := by
  constructor
  · intro ha
    rw [text_rotation, if_pos ha]
    norm_num
  · intro ha
    rw [text_rotation, if_neg (not_lt.mpr ha)]
    norm_num

/-- Witness for `text_rotation_amended` at the anchors `2π` and `0`. -/
theorem text_rotation_amended_witness :
    ((text_rotation 2).1 : ℝ) * Real.pi + ((text_rotation 2).2 : ℝ) = 0 ∧
    ((text_rotation 0).1 : ℝ) * Real.pi + ((text_rotation 0).2 : ℝ)
        = ((0 : ℚ) : ℝ) * Real.pi + 180 :=
  ⟨(text_rotation_amended 2).1 (by norm_num), (text_rotation_amended 0).2 (by norm_num)⟩

/-! ### Claim C4 -/

/-- C4 counterexample: lines 182/184 index the label list modulo the
branching factor `NUMBER_ITEMS_PER_LEVEL[level]`, not modulo the label-list
length.  With labels `["A", "B"]` and branching factor 3, segment 2 looks up
index `2 mod 3 = 2`, which is out of range (an IndexError, `none`), while
the claim's lookup `2 mod 2 = 0` would return `"A"`. -/
theorem label_lookup_counterexample :
    label_for ["A", "B"] 3 2 = none ∧ label_for_claim ["A", "B"] 2 = some "A" := by
  constructor <;> norm_num [label_for, label_for_claim]

/-- C4 amended: the label shown for segment `i` is `labels[k][i mod n_k]`
where `n_k` is the level's branching factor from the data shape; when the
label list has at least `n_k` entries the lookup succeeds and is cyclic with
period `n_k`.  (When the label list is shorter than `n_k` the lookup can
raise an IndexError instead of wrapping, per the counterexample.) -/
theorem label_lookup_amended (lk : List String) (n i : ℕ) (hn : 0 < n)
    (hlen : n ≤ lk.length) :
    (∃ s, label_for lk n i = some s) ∧ label_for lk n (i + n) = label_for lk n i := by
  constructor
  · have hlt : i % n < lk.length := lt_of_lt_of_le (Nat.mod_lt i hn) hlen
    exact ⟨lk[i % n], by rw [label_for, List.getElem?_eq_getElem hlt]⟩
  · rw [label_for, label_for, Nat.add_mod_right]

/-- Witness for `label_lookup_amended` with labels `["A", "B"]`, branching
factor 2, segment 3. -/
theorem label_lookup_amended_witness :
    (∃ s, label_for ["A", "B"] 2 3 = some s) ∧
    label_for ["A", "B"] 2 (3 + 2) = label_for ["A", "B"] 2 3 :=
  label_lookup_amended ["A", "B"] 2 3 (by norm_num) (by norm_num)

/-! ### Claim C5, counterexample part -/

/-- C5 counterexample: the claim says each emitted alpha `v` spawns the
descendant range `(v, lo)` with `lo` the parent range's low end; the code
instead carries the whole boundary list, whose ADJACENT pairs form the
descendant ranges (low end = the next emitted value).  For shape `[1,2,1]`
the two constructions diverge at level 2: the code (`alphaSchedule`) yields
`[0.7, 0.5]` while the claim's construction (`specAlphaSchedule`) yields
`[0.6, 0.5]`. -/
theorem alpha_split_counterexample :
    alphaSchedule [1, 2, 1] = some [[1], [4/5, 3/5], [7/10, 1/2]] ∧
    specAlphaSchedule [1, 2, 1] = [[1], [4/5, 3/5], [3/5, 1/2]] ∧
    (7 : ℚ)/10 ≠ 3/5 := by
  exact ⟨eval_alphaSchedule_121, eval_specAlphaSchedule_121, by norm_num⟩

/-! ### Edge helper and further evaluations -/

theorem edge_getElem (shape : List ℕ) (data : List ℚ) (k i : ℕ) (e : ℚ)
    (he : (edge_values_at_level shape data k)[i]? = some e) :
    e = ((width_values_at_level shape data k).take i).sum := by
  have hi : i < (edge_values_at_level shape data k).length :=
    (List.getElem?_eq_some.mp he).1
  rw [edge_values_at_level, cumsumFrom_length, List.length_cons] at hi
  rw [edge_values_at_level] at he
  have h1 := cumsumFrom_getElem _ _ _ _ he
  rw [List.take_succ_cons, List.sum_cons, zero_add, zero_add] at h1
  have hle : i ≤ (width_values_at_level shape data k).length - 1 := by
    rw [List.length_dropLast] at hi
    omega
  rw [h1, List.dropLast_eq_take, List.take_take, min_eq_left hle]

theorem edge_head (shape : List ℕ) (data : List ℚ) (k : ℕ) :
    (edge_values_at_level shape data k)[0]? = some 0 := by
  rw [edge_values_at_level, cumsumFrom]
  norm_num

theorem eval_percent0_1311 :
    percent_values_at_level [2, 2] [1, 3, 1, 1] 0 = [2/3, 1/3] := by
  have h1 : percent_values_at_level [2, 2] [1, 3, 1, 1] 1
      = values_normalized [1, 3, 1, 1] := by
    rw [percent_values_at_level, aggregateToLevel_base (by norm_num)]
  have h2 : values_normalized [1, 3, 1, 1] = [1/6, 1/2, 1/6, 1/6] := by
    norm_num [values_normalized, totalSum]
  have h3 : percent_values_at_level [2, 2] [1, 3, 1, 1] 0
      = chunkSums 2 (percent_values_at_level [2, 2] [1, 3, 1, 1] 1) := by
    rw [percent_values_at_level, aggregateToLevel_step (by norm_num)]
    rfl
  rw [h3, h1, h2]
  norm_num [chunkSums]

theorem rel_percent_length (shape : List ℕ) (data : List ℚ) (k : ℕ) :
    (rel_percent_values_at_level shape data k).length
      = (original_values_at_level shape data k).length := by
  simp [rel_percent_values_at_level]

/-! ### Claim C1 -/

/-- C1: for positive total, the angular width of segment `i` at level `k`
equals `2π` times the level-`k` aggregated value divided by the grand total
(widths are stored as multiples of π, bridged here by `* Real.pi`), and the
edge of segment `i` is the sum of the widths of segments `0..i-1`, with
`edge[0] = 0`. -/
theorem width_edge_formula (shape : List ℕ) (data : List ℚ) (k : ℕ)
    (_hT : 0 < totalSum data) :
    (∀ (i : ℕ) (w : ℚ), (width_values_at_level shape data k)[i]? = some w →
      ∃ v : ℚ, (original_values_at_level shape data k)[i]? = some v ∧
        (w : ℝ) * Real.pi = 2 * Real.pi * (v : ℝ) / ((totalSum data : ℚ) : ℝ)) ∧
    (∀ (i : ℕ) (e : ℚ), (edge_values_at_level shape data k)[i]? = some e →
      e = ((width_values_at_level shape data k).take i).sum) ∧
    (edge_values_at_level shape data k)[0]? = some 0 := by
  refine ⟨?_, fun i e he => edge_getElem shape data k i e he, edge_head shape data k⟩
  intro i w hw
  rw [width_eq_map_original, List.getElem?_map] at hw
  rcases Option.map_eq_some'.mp hw with ⟨v, hv, hvw⟩
  refine ⟨v, hv, ?_⟩
  rw [← hvw]
  push_cast
  ring

/-- Witness for `width_edge_formula` at shape `(2,2)`, data `[1,3,1,1]`. -/
theorem width_edge_formula_witness :
    (edge_values_at_level [2, 2] [1, 3, 1, 1] 0)[0]? = some 0 :=
  (width_edge_formula [2, 2] [1, 3, 1, 1] 0 (by norm_num [totalSum])).2.2

/-! ### Claim C6 -/

/-- C6: for every valid input (rectangular, non-negative, positive total)
and every level `k`, the widths at level `k` sum to exactly `2π` (here: the
π-coefficients sum to 2, bridged by `* Real.pi`), and the edge sequence is
non-decreasing with `edge[0] = 0`. -/
theorem level_partition_invariant (shape : List ℕ) (data : List ℚ) (k : ℕ)
    (hrect : data.length = shape.prod) (hpos : 0 < totalSum data)
    (hnn : ∀ x ∈ data, 0 ≤ x) (_hk : k < shape.length) :
    (((width_values_at_level shape data k).sum : ℚ) : ℝ) * Real.pi = 2 * Real.pi ∧
    List.Chain' (· ≤ ·) (edge_values_at_level shape data k) ∧
    (edge_values_at_level shape data k)[0]? = some 0 := by
  have hTne : totalSum data ≠ 0 := ne_of_gt hpos
  have hne : data ≠ [] := by
    intro h
    rw [h] at hpos
    simp [totalSum] at hpos
  have hprod : shape.prod ≠ 0 := by
    have hlp : 0 < data.length := List.length_pos.mpr hne
    rw [hrect] at hlp
    exact Nat.pos_iff_ne_zero.mp hlp
  have hdims : ∀ d ∈ shape, d ≠ 0 := by
    intro d hd h0
    exact hprod (List.prod_eq_zero (h0 ▸ hd))
  have hsum : (width_values_at_level shape data k).sum = 2 := by
    rw [width_values_at_level, aggregateToLevel_sum hdims, values_in_angles_eq_map,
      sum_map_of_additive _ (fun x y => by rw [add_div, add_mul]) (by simp)]
    rw [totalSum] at hTne ⊢
    field_simp
  have hwnn : ∀ x ∈ width_values_at_level shape data k, 0 ≤ x := by
    rw [width_values_at_level]
    apply aggregateToLevel_nonneg
    intro x hx
    rw [values_in_angles_eq_map] at hx
    rcases List.mem_map.mp hx with ⟨v, hv, rfl⟩
    have h0v : 0 ≤ v := hnn v hv
    have : 0 ≤ v / totalSum data := div_nonneg h0v (le_of_lt hpos)
    linarith
  refine ⟨by rw [hsum]; norm_num, ?_, edge_head shape data k⟩
  rw [edge_values_at_level]
  apply cumsumFrom_chain
  intro x hx
  rcases List.mem_cons.mp hx with rfl | hx
  · exact le_refl 0
  · exact hwnn x (List.dropLast_subset _ hx)

/-- Witness for `level_partition_invariant` at shape `(2,2)`, data `[1,3,1,1]`. -/
theorem level_partition_invariant_witness :
    (((width_values_at_level [2, 2] [1, 3, 1, 1] 0).sum : ℚ) : ℝ) * Real.pi = 2 * Real.pi :=
  (level_partition_invariant [2, 2] [1, 3, 1, 1] 0 (by norm_num) (by norm_num [totalSum])
    (by intro x hx; fin_cases hx <;> norm_num) (by norm_num)).1

/-! ### Claim C8 -/

/-- C8: a label is emitted iff the segment's fraction of the grand total
exceeds the threshold `t`; the condition uses the fraction-of-total list in
both percent modes (the `rel_percent` flag only changes the displayed
number), and the fraction compared is the aggregated raw value over the
grand total.  The drawn arcs (the width list) are independent of `t` and
cover every segment: there is one width per percent entry. -/
theorem label_visibility (shape : List ℕ) (data : List ℚ) (labels : List (List String))
    (t : ℚ) (k i : ℕ)
    (hp : ∃ p, (percent_values_at_level shape data k)[i]? = some p)
    (hlab : ∃ s, label_for (labels.getD k []) (shape.getD k 0) i = some s) :
    ((segmentLabel shape data labels t true k i).isSome
        ↔ (segmentLabel shape data labels t false k i).isSome) ∧
    ((segmentLabel shape data labels t false k i).isSome
        ↔ ∃ p, (percent_values_at_level shape data k)[i]? = some p ∧ t < p) ∧
    (∀ p v, (percent_values_at_level shape data k)[i]? = some p →
      (original_values_at_level shape data k)[i]? = some v → p = v / totalSum data) ∧
    (width_values_at_level shape data k).length
      = (percent_values_at_level shape data k).length := by
  rcases hp with ⟨p, hpeq⟩
  rcases hlab with ⟨s, hseq⟩
  have hip : i < (percent_values_at_level shape data k).length :=
    (List.getElem?_eq_some.mp hpeq).1
  have hlenop : (percent_values_at_level shape data k).length
      = (original_values_at_level shape data k).length := by
    rw [percent_eq_map_original]
    simp
  have hio : i < (original_values_at_level shape data k).length := hlenop ▸ hip
  have hov : (original_values_at_level shape data k)[i]?
      = some ((original_values_at_level shape data k)[i]) := List.getElem?_eq_getElem hio
  have hir : i < (rel_percent_values_at_level shape data k).length := by
    rw [rel_percent_length]
    exact hio
  have hrv : (rel_percent_values_at_level shape data k)[i]?
      = some ((rel_percent_values_at_level shape data k)[i]) := List.getElem?_eq_getElem hir
  simp only [List.getD_eq_getElem?_getD] at hseq
  have key : ∀ relp, ((segmentLabel shape data labels t relp k i).isSome ↔ t < p) := by
    intro relp
    by_cases htp : t < p
    · cases relp
      · simp [segmentLabel, hpeq, htp, hseq, hov]
      · simp [segmentLabel, hpeq, htp, hseq, hov, hrv]
    · cases relp <;> simp [segmentLabel, hpeq, htp]
  refine ⟨(key true).trans (key false).symm, ?_, ?_, ?_⟩
  · constructor
    · intro h
      exact ⟨p, hpeq, (key false).mp h⟩
    · rintro ⟨p₂, hp₂, ht₂⟩
      rw [hpeq] at hp₂
      cases hp₂
      exact (key false).mpr ht₂
  · intro p₂ v hp₂ hv
    rw [percent_eq_map_original, List.getElem?_map, hv] at hp₂
    simpa using hp₂.symm
  · rw [width_eq_map_original, percent_eq_map_original]
    simp

/-- Witness for `label_visibility` at shape `(2,2)`, data `[1,3,1,1]`,
labels `[["A","B"],["X","Y"]]`, threshold `1/50`, segment 0 of level 0. -/
theorem label_visibility_witness :
    (width_values_at_level [2, 2] [1, 3, 1, 1] 0).length
      = (percent_values_at_level [2, 2] [1, 3, 1, 1] 0).length :=
  (label_visibility [2, 2] [1, 3, 1, 1] [["A", "B"], ["X", "Y"]] (1/50) 0 0
    ⟨2/3, by rw [eval_percent0_1311]; rfl⟩
    ⟨"A", by norm_num [label_for]⟩).2.2.2

/-! ### Claim C5, amended part -/

/-- C5 amended: for an active boundary pair `(a, b)` with `a > 0.4` the code
splits it into `nb+1` equal steps of `delta = (a-b)/(nb+1)`, emits the `nb`
values `a - delta, ..., a - nb*delta`, and carries the WHOLE new boundary
list `newAlphas nb a b` (ending exactly at `b`) to the next level, where its
adjacent pairs — `(v_j, v_{j+1})`, the low end being the NEXT emitted value,
and `(v_nb, b)` only for the last — become the descendant sub-ranges. -/
theorem alpha_split_amended (nb : ℕ) (a b : ℚ) (rest : List ℚ)
    (ha : low_alpha_range < a) :
    processBoundaries nb (a :: b :: rest)
      = (processBoundaries nb (b :: rest)).map
          (fun r => (newAlphas nb a b :: r.1, (newAlphas nb a b).dropLast ++ r.2)) ∧
    (newAlphas nb a b).dropLast
      = (List.range nb).map (fun j : ℕ => a - ((a - b) / ((nb : ℚ) + 1)) * ((j : ℚ) + 1)) ∧
    (newAlphas nb a b).getLast? = some b := by
  refine ⟨?_, newAlphas_dropLast nb a b, newAlphas_getLast nb a b⟩
  cases hpb : processBoundaries nb (b :: rest) with
  | none => simp [processBoundaries, ha, hpb]
  | some r => simp [processBoundaries, ha, hpb]

/-- Witness for `alpha_split_amended`: splitting `(1, 0.4)` in 3 steps ends
exactly at `0.4`. -/
theorem alpha_split_amended_witness :
    (newAlphas 2 1 (2/5)).getLast? = some (2/5) :=
  (alpha_split_amended 2 1 (2/5) [] (by norm_num [low_alpha_range])).2.2

/-! ### Elementwise facts about one split -/

theorem newAlphas_dropLast_getElem (nb : ℕ) (a b : ℚ) (j : ℕ) (x : ℚ)
    (h : ((newAlphas nb a b).dropLast)[j]? = some x) :
    j < nb ∧ x = a - ((a - b) / ((nb : ℚ) + 1)) * ((j : ℚ) + 1) := by
  rw [newAlphas_dropLast, List.getElem?_map] at h
  rcases Option.map_eq_some'.mp h with ⟨j₂, hj₂, hx⟩
  have hjlt : j < nb := by
    have := (List.getElem?_eq_some.mp hj₂).1
    simpa using this
  have hval : j₂ = j := by
    rw [List.getElem?_range hjlt] at hj₂
    injection hj₂ with hval
    exact hval.symm
  subst hval
  exact ⟨hjlt, hx.symm⟩

theorem newAlphas_emitted_bounds (nb : ℕ) (a b : ℚ) (hab : b < a) (x : ℚ)
    (hx : x ∈ (newAlphas nb a b).dropLast) : b < x ∧ x < a := by
  rcases List.mem_iff_getElem?.mp hx with ⟨j, hj⟩
  obtain ⟨hjlt, rfl⟩ := newAlphas_dropLast_getElem nb a b j _ hj
  set d := (a - b) / ((nb : ℚ) + 1) with hddef
  have hdpos : 0 < d := div_pos (sub_pos.mpr hab) (by positivity)
  have hcancel : d * ((nb : ℚ) + 1) = a - b := by
    rw [hddef]
    field_simp
  have hjq : ((j : ℚ) + 1) < ((nb : ℚ) + 1) := by
    have : (j : ℚ) < (nb : ℚ) := by exact_mod_cast hjlt
    linarith
  constructor
  · have hlt : d * ((j : ℚ) + 1) < d * ((nb : ℚ) + 1) := by
      exact mul_lt_mul_of_pos_left hjq hdpos
    rw [hcancel] at hlt
    linarith
  · have hpos : 0 < d * ((j : ℚ) + 1) := by positivity
    linarith

theorem newAlphas_chain (nb : ℕ) (a b : ℚ) (hab : b < a) :
    List.Chain' (fun x y => y < x) (newAlphas nb a b) := by
  set d := (a - b) / ((nb : ℚ) + 1) with hddef
  have hdpos : 0 < d := div_pos (sub_pos.mpr hab) (by positivity)
  rw [newAlphas, List.chain'_map]
  refine (List.chain'_range_succ _ nb).mpr ?_
  intro m hm
  have hq : d * ((m : ℚ) + 1) < d * (((m : ℕ) : ℚ) + 1 + 1) := by
    apply mul_lt_mul_of_pos_left _ hdpos
    linarith
  push_cast
  push_cast at hq
  linarith

/-! ### Behaviour of the inner boundary loop -/

theorem processBoundaries_none_of_getLast (nb : ℕ) :
    ∀ (l : List ℚ) (x : ℚ), l.getLast? = some x → low_alpha_range < x →
      processBoundaries nb l = none := by
  intro l
  induction l with
  | nil => intro x hx _; simp at hx
  | cons a t ih =>
    intro x hx hlt
    cases t with
    | nil =>
      have hax : a = x := by simpa using hx
      subst hax
      simp [processBoundaries, hlt]
    | cons b rest =>
      have hx2 : (b :: rest).getLast? = some x := by
        rwa [List.getLast?_cons_cons] at hx
      have hrec := ih x hx2 hlt
      by_cases ha : low_alpha_range < a <;> simp [processBoundaries, ha, hrec]

theorem processBoundaries_spec (nb : ℕ) :
    ∀ p : List ℚ, (∀ x ∈ p, low_alpha_range < x) →
      List.Chain' (fun x y => y < x) (p ++ [low_alpha_range]) →
      ∃ Ns E, processBoundaries nb (p ++ [low_alpha_range]) = some (Ns, E) ∧
        Ns.length = p.length ∧
        E.length = p.length * nb ∧
        (∀ (i : ℕ) (x : ℚ), E[i]? = some x →
          low_alpha_range < x ∧ ∃ par, p[i / nb]? = some par ∧ x < par) ∧
        (∀ N, Ns[0]? = some N → ∃ v w, p[0]? = some v ∧
          (p ++ [low_alpha_range])[1]? = some w ∧ N = newAlphas nb v w) := by
  intro p
  induction p with
  | nil =>
    intro _ _
    refine ⟨[], [], ?_, rfl, by simp, ?_, ?_⟩
    · simp [processBoundaries]
    · intro i x hx; simp at hx
    · intro N hN; simp at hN
  | cons v p' ih =>
    intro hmem hchain
    have hv : low_alpha_range < v := hmem v (List.mem_cons_self v p')
    cases p' with
    | nil =>
      -- the boundary list is [v, 0.4]
      have hpb : processBoundaries nb ([v] ++ [low_alpha_range])
          = some ([newAlphas nb v low_alpha_range],
                  (newAlphas nb v low_alpha_range).dropLast ++ []) := by
        simp [processBoundaries, hv]
      refine ⟨_, _, hpb, by simp, ?_, ?_, ?_⟩
      · simp [List.length_dropLast, newAlphas_length]
      · intro i x hx
        rw [List.append_nil] at hx
        have hilt : i < nb := by
          have := (List.getElem?_eq_some.mp hx).1
          simpa [List.length_dropLast, newAlphas_length] using this
        have hxmem : x ∈ (newAlphas nb v low_alpha_range).dropLast :=
          List.mem_iff_getElem?.mpr ⟨i, hx⟩
        obtain ⟨hbx, hxa⟩ := newAlphas_emitted_bounds nb v low_alpha_range hv x hxmem
        refine ⟨hbx, v, ?_, hxa⟩
        rw [Nat.div_eq_of_lt hilt]
        rfl
      · intro N hN
        have h2 : newAlphas nb v low_alpha_range = N := by simpa using hN
        exact ⟨v, low_alpha_range, rfl, rfl, h2.symm⟩
    | cons c p'' =>
      have hc : low_alpha_range < c := hmem c (by simp)
      have hchain' : List.Chain' (fun x y => y < x) ((c :: p'') ++ [low_alpha_range]) :=
        (List.chain'_cons'.mp hchain).2
      have hcv : c < v := by
        have := (List.chain'_cons'.mp hchain).1
        exact this c rfl
      obtain ⟨Ns', E', hpb', hNl, hEl, hEidx, hN0⟩ :=
        ih (fun x hx => hmem x (List.mem_cons_of_mem v hx)) hchain'
      have hpb : processBoundaries nb ((v :: c :: p'') ++ [low_alpha_range])
          = some (newAlphas nb v c :: Ns', (newAlphas nb v c).dropLast ++ E') := by
        have hshape : (v :: c :: p'') ++ [low_alpha_range]
            = v :: c :: (p'' ++ [low_alpha_range]) := by simp
        rw [hshape]
        have hshape2 : (c :: p'') ++ [low_alpha_range]
            = c :: (p'' ++ [low_alpha_range]) := by simp
        rw [hshape2] at hpb'
        simp [processBoundaries, hv, hpb']
      refine ⟨_, _, hpb, by simp [hNl], ?_, ?_, ?_⟩
      · have hlenD : ((newAlphas nb v c).dropLast).length = nb := by
          simp [List.length_dropLast, newAlphas_length]
        rw [List.length_append, hlenD, hEl]
        simp only [List.length_cons]
        ring
      · intro i x hx
        have hlenD : ((newAlphas nb v c).dropLast).length = nb := by
          simp [List.length_dropLast, newAlphas_length]
        by_cases hi : i < nb
        · rw [List.getElem?_append_left (by rw [hlenD]; exact hi)] at hx
          have hxmem : x ∈ (newAlphas nb v c).dropLast :=
            List.mem_iff_getElem?.mpr ⟨i, hx⟩
          obtain ⟨hbx, hxa⟩ := newAlphas_emitted_bounds nb v c hcv x hxmem
          refine ⟨lt_trans hc hbx, v, ?_, hxa⟩
          rw [Nat.div_eq_of_lt hi]
          rfl
        · push_neg at hi
          rw [List.getElem?_append_right (by rw [hlenD]; exact hi), hlenD] at hx
          obtain ⟨hqx, par, hpar, hxpar⟩ := hEidx (i - nb) x hx
          have hnbpos : 0 < nb := by
            rcases Nat.eq_zero_or_pos nb with h0 | h0
            · exfalso
              have := (List.getElem?_eq_some.mp hx).1
              rw [hEl, h0] at this
              simp at this
            · exact h0
          have hdiv : i / nb = (i - nb) / nb + 1 := Nat.div_eq_sub_div hnbpos hi
          refine ⟨hqx, par, ?_, hxpar⟩
          rw [hdiv]
          simpa using hpar
      · intro N hN
        have h2 : newAlphas nb v c = N := by simpa using hN
        exact ⟨v, c, rfl, by simp, h2.symm⟩

/-! ### One level of the alpha construction preserves the invariant -/

theorem alphaLevelStep_preserves (shape : List ℕ) (m : ℕ) (s s₂ : AlphaState)
    (hinv : AlphaInv shape m s)
    (hstep : alphaLevelStep shape (m + 1) s = some s₂) :
    s₂.alpha_per_level.length = m + 2 ∧
    SchedCore shape s₂.alpha_per_level ∧
    (AlphaInv shape (m + 1) s₂ ∨ alphaLevelStep shape (m + 2) s₂ = none) := by
  obtain ⟨hperlen, hranlen, ⟨hc0, hck, hcpar⟩, p, hper, hran, hpmem, hpchain⟩ := hinv
  have e1 : m + 1 - 1 = m := rfl
  rw [alphaLevelStep, e1, hran] at hstep
  cases hshape : shape[m + 1]? with
  | none => rw [hshape] at hstep; simp at hstep
  | some nb =>
    rw [hshape] at hstep
    dsimp only at hstep
    obtain ⟨Ns, E, hpb, hNlen, hElen, hEidx, hN0⟩ := processBoundaries_spec nb p hpmem hpchain
    rw [hpb] at hstep
    dsimp only at hstep
    have hs₂ : s₂ = ⟨s.alpha_range ++ Ns, s.alpha_per_level ++ [E]⟩ :=
      (Option.some.inj hstep).symm
    subst hs₂
    -- frequently used access facts
    have hperE : (s.alpha_per_level ++ [E])[m + 1]? = some E := by
      rw [List.getElem?_append_right (by rw [hperlen])]
      simp [hperlen]
    have hplen : p.length = ((shape.drop 1).take m).prod := by
      cases m with
      | zero =>
        rw [hper] at hc0
        have hp1 : p = [1] := Option.some.inj hc0
        rw [hp1]
        simp
      | succ m₀ => exact (hck (m₀ + 1) p (by omega) hper).2
    have hprodsucc : ((shape.drop 1).take (m + 1)).prod
        = ((shape.drop 1).take m).prod * nb := by
      rw [List.take_succ, List.prod_append]
      congr 1
      have hd : (shape.drop 1)[m]? = some nb := by
        rw [List.getElem?_drop, Nat.add_comm 1 m]
        exact hshape
      rw [hd]
      simp
    have hEmem : ∀ x ∈ E, low_alpha_range < x := by
      intro x hx
      rcases List.mem_iff_getElem?.mp hx with ⟨i, hi⟩
      exact (hEidx i x hi).1
    have hElen2 : E.length = ((shape.drop 1).take (m + 1)).prod := by
      rw [hElen, hplen, hprodsucc]
    -- the schedule core for the extended per-level list
    have hcore₂ : SchedCore shape (s.alpha_per_level ++ [E]) := by
      refine ⟨?_, ?_, ?_⟩
      · rw [List.getElem?_append_left (by rw [hperlen]; omega)]
        exact hc0
      · intro k l hk hkl
        rcases lt_trichotomy k (m + 1) with hlt | heq | hgt
        · rw [List.getElem?_append_left (by rw [hperlen]; omega)] at hkl
          exact hck k l hk hkl
        · subst heq
          rw [hperE] at hkl
          have hlE : l = E := (Option.some.inj hkl).symm
          subst hlE
          exact ⟨hEmem, hElen2⟩
        · rw [List.getElem?_append_right (by rw [hperlen]; omega)] at hkl
          rw [List.getElem?_eq_none (by simp [hperlen]; omega)] at hkl
          cases hkl
      · intro k lk lk1 n hlk hlk1 hn i x hx
        rcases lt_trichotomy (k + 1) (m + 1) with hlt | heq | hgt
        · rw [List.getElem?_append_left (by rw [hperlen]; omega)] at hlk
          rw [List.getElem?_append_left (by rw [hperlen]; omega)] at hlk1
          exact hcpar k lk lk1 n hlk hlk1 hn i x hx
        · have hkm : k = m := by omega
          subst hkm
          rw [List.getElem?_append_left (by rw [hperlen]; omega), hper] at hlk
          have hlkp : lk = p := (Option.some.inj hlk).symm
          subst hlkp
          rw [hperE] at hlk1
          have hlk1E : lk1 = E := (Option.some.inj hlk1).symm
          subst hlk1E
          rw [hshape] at hn
          have hnnb : n = nb := (Option.some.inj hn).symm
          subst hnnb
          exact (hEidx i x hx).2
        · rw [List.getElem?_append_right (by rw [hperlen]; omega)] at hlk1
          rw [List.getElem?_eq_none (by simp [hperlen]; omega)] at hlk1
          cases hlk1
    refine ⟨by simp [hperlen], hcore₂, ?_⟩
    -- the next boundary list: poisoned unless exactly one parent was split
    cases hp : p with
    | nil =>
      -- no splits: the next level reads past the end of alpha_range
      right
      have hNs : Ns = [] := by
        rw [hp] at hNlen
        exact List.length_eq_zero.mp hNlen
      have e2 : m + 2 - 1 = m + 1 := rfl
      rw [alphaLevelStep, e2]
      have hnone : (s.alpha_range ++ Ns)[m + 1]? = none := by
        rw [hNs, List.append_nil]
        exact List.getElem?_eq_none (by rw [hranlen])
      rw [hnone]
    | cons v p' =>
      have h0lt : 0 < Ns.length := by rw [hNlen, hp]; simp
      obtain ⟨N₀, hN₀⟩ : ∃ N₀, Ns[0]? = some N₀ := ⟨Ns[0], List.getElem?_eq_getElem h0lt⟩
      obtain ⟨v₀, w, hv₀, hw, hN₀eq⟩ := hN0 N₀ hN₀
      have hv₀v : v₀ = v := by
        rw [hp] at hv₀
        simpa using hv₀.symm
      subst hv₀v
      have hranN₀ : (s.alpha_range ++ Ns)[m + 1]? = some N₀ := by
        rw [List.getElem?_append_right (by rw [hranlen])]
        simpa [hranlen] using hN₀
      have hv : low_alpha_range < v₀ := hpmem v₀ (by rw [hp]; simp)
      cases hp' : p' with
      | nil =>
        -- exactly one split: the invariant carries to level m+1
        left
        have hdirect : processBoundaries nb (p ++ [low_alpha_range])
            = some ([newAlphas nb v₀ low_alpha_range],
                    (newAlphas nb v₀ low_alpha_range).dropLast ++ []) := by
          rw [hp, hp']
          simp [processBoundaries, hv]
        rw [hdirect] at hpb
        have hpair := Option.some.inj hpb
        have hNsval : [newAlphas nb v₀ low_alpha_range] = Ns := congrArg Prod.fst hpair
        have hEval : (newAlphas nb v₀ low_alpha_range).dropLast ++ [] = E :=
          congrArg Prod.snd hpair
        rw [List.append_nil] at hEval
        have hne2 : newAlphas nb v₀ low_alpha_range ≠ [] := by
          intro hcontra
          have hl := newAlphas_length nb v₀ low_alpha_range
          rw [hcontra] at hl
          simp at hl
        have hlastval : (newAlphas nb v₀ low_alpha_range).getLast hne2 = low_alpha_range := by
          have h3 := newAlphas_getLast nb v₀ low_alpha_range
          rw [List.getLast?_eq_getLast _ hne2] at h3
          exact Option.some.inj h3
        have hNfull : E ++ [low_alpha_range] = newAlphas nb v₀ low_alpha_range := by
          have h4 := List.dropLast_append_getLast hne2
          rw [hlastval, hEval] at h4
          exact h4
        refine ⟨by simp [hperlen], by simp [hranlen, hNlen, hp, hp'], hcore₂,
          E, hperE, ?_, hEmem, ?_⟩
        · rw [hranN₀, hN₀eq]
          have hwlow : w = low_alpha_range := by
            rw [hp, hp'] at hw
            simpa using hw.symm
          rw [hwlow, hNfull]
        · rw [hNfull]
          exact newAlphas_chain nb v₀ low_alpha_range hv
      | cons c p'' =>
        -- two or more splits: the boundary list read next ends above the floor
        right
        have hw2 : w = c := by
          rw [hp, hp'] at hw
          simpa using hw.symm
        have hc : low_alpha_range < c := hpmem c (by rw [hp, hp']; simp)
        have hlastN₀ : N₀.getLast? = some c := by
          rw [hN₀eq, hw2]
          exact newAlphas_getLast nb v₀ c
        have e2 : m + 2 - 1 = m + 1 := rfl
        rw [alphaLevelStep, e2, hranN₀]
        cases hsh2 : shape[m + 2]? with
        | none => rfl
        | some nb₂ =>
          dsimp only
          rw [processBoundaries_none_of_getLast nb₂ N₀ c hlastN₀ hc]

/-! ### Running all levels -/

theorem runLevels_core (shape : List ℕ) :
    ∀ (c m : ℕ) (s sf : AlphaState), AlphaInv shape m s →
      runLevels shape (List.range' (m + 1) c) s = some sf →
      SchedCore shape sf.alpha_per_level ∧ sf.alpha_per_level.length = m + 1 + c := by
  intro c
  induction c with
  | zero =>
    intro m s sf hinv hrun
    have hsf : s = sf := Option.some.inj hrun
    subst hsf
    exact ⟨hinv.2.2.1, hinv.1⟩
  | succ c ih =>
    intro m s sf hinv hrun
    rw [List.range'_succ, runLevels.eq_def] at hrun
    dsimp only at hrun
    cases hstep : alphaLevelStep shape (m + 1) s with
    | none => rw [hstep] at hrun; cases hrun
    | some s₂ =>
      rw [hstep] at hrun
      dsimp only at hrun
      obtain ⟨hlen₂, hcore₂, hrest⟩ := alphaLevelStep_preserves shape m s s₂ hinv hstep
      rcases hrest with hinv₂ | hpoison
      · have hmain := ih (m + 1) s₂ sf hinv₂ (by simpa using hrun)
        exact ⟨hmain.1, by omega⟩
      · cases c with
        | zero =>
          have hsf : s₂ = sf := Option.some.inj hrun
          subst hsf
          exact ⟨hcore₂, by omega⟩
        | succ c₂ =>
          rw [List.range'_succ, runLevels.eq_def] at hrun
          dsimp only at hrun
          have e3 : m + 1 + 1 = m + 2 := rfl
          rw [e3, hpoison] at hrun
          dsimp only at hrun
          cases hrun

theorem alphaSchedule_core (shape : List ℕ) (sched : List (List ℚ))
    (h : alphaSchedule shape = some sched) :
    SchedCore shape sched ∧ sched.length = shape.length - 1 + 1 := by
  rw [alphaSchedule] at h
  rcases Option.map_eq_some'.mp h with ⟨sf, hrun, hper⟩
  have hinit : AlphaInv shape 0 ⟨[[1, low_alpha_range]], [[1]]⟩ := by
    refine ⟨rfl, rfl, ⟨rfl, ?_, ?_⟩, [1], rfl, rfl, ?_, ?_⟩
    · intro k l hk hkl
      rw [List.getElem?_eq_none (by simp; omega)] at hkl
      cases hkl
    · intro k lk lk1 n hlk hlk1 hn i x hx
      rw [List.getElem?_eq_none (by simp)] at hlk1
      cases hlk1
    · intro x hx
      have hx1 : x = 1 := by simpa using hx
      rw [hx1, low_alpha_range]
      norm_num
    · simp [low_alpha_range]
      norm_num
  have hmain := runLevels_core shape (shape.length - 1) 0 _ sf hinit hrun
  rw [← hper]
  exact ⟨hmain.1, by have := hmain.2; omega⟩

/-! ### Claim C7 -/

/-- C7: whenever the alpha construction completes (for deeper bushy trees it
instead aborts with an IndexError), every alpha value scheduled for a level
`k ≥ 1` is strictly greater than the 0.4 floor, level 0 has alpha exactly 1,
and along every branch the alpha of a node (flat item `i` at level `k+1`) is
strictly less than the alpha of its parent (flat item `i / n_{k+1}` at
level `k`). -/
theorem alpha_monotone (shape : List ℕ) (sched : List (List ℚ))
    (h : alphaSchedule shape = some sched) :
    sched[0]? = some [1] ∧
    (∀ (k : ℕ) (l : List ℚ), 1 ≤ k → sched[k]? = some l →
      ∀ x ∈ l, low_alpha_range < x) ∧
    (∀ (k : ℕ) (lk lk1 : List ℚ) (n : ℕ), sched[k]? = some lk →
      sched[k + 1]? = some lk1 → shape[k + 1]? = some n →
      ∀ (i : ℕ) (x : ℚ), lk1[i]? = some x →
      ∃ par, lk[i / n]? = some par ∧ x < par) := by
  obtain ⟨⟨hc0, hck, hcpar⟩, _⟩ := alphaSchedule_core shape sched h
  exact ⟨hc0, fun k l hk hkl => (hck k l hk hkl).1, hcpar⟩

/-- Witness for `alpha_monotone` at shape `(2,2)`: the level-1 alphas
`[0.8, 0.6]` are above the floor and below their parent's alpha 1. -/
theorem alpha_monotone_witness : low_alpha_range < (4 : ℚ)/5 ∧ (4 : ℚ)/5 < 1 := by
  have h := alpha_monotone [2, 2] [[1], [4/5, 3/5]] eval_alphaSchedule_22
  constructor
  · exact h.2.1 1 [4/5, 3/5] (le_refl 1) rfl (4/5) (by simp)
  · obtain ⟨par, hpar, hlt⟩ := h.2.2 0 [1] [4/5, 3/5] 2 rfl rfl rfl 0 (4/5) rfl
    have hpar1 : par = 1 := by simpa using hpar.symm
    rw [← hpar1]
    exact hlt

/-! ### Claim C10 -/

/-- C10 counterexample: for the depth-4 tensor of shape `(2,2,2,2)` the
alpha-schedule construction itself aborts with an out-of-range read
(`alpha_range[level-1][i+1]` at level 3, because `alpha_range` gains one
list per SPLIT, not per level), so there is no alpha schedule at all for the
color builder to index — the claim's bound fails for this input. -/
theorem schedule_bound_counterexample : alphaSchedule [2, 2, 2, 2] = none :=
  eval_alphaSchedule_2222

/-- C10 amended: whenever the alpha construction completes, the level-`k`
schedule has EXACTLY `n_1 * ... * n_k` entries, so every index
`0 ≤ i < n_1 * ... * n_k` used by the level color builder
(`alpha_per_level[level][item]`, lines 103-105) is in bounds; for deeper
bushy trees (e.g. shape `(2,2,2,2)`) the scheduler itself raises an
IndexError before the color builder runs. -/
theorem schedule_lengths (shape : List ℕ) (sched : List (List ℚ))
    (h : alphaSchedule shape = some sched) :
    (∀ (k : ℕ) (l : List ℚ), 1 ≤ k → sched[k]? = some l →
      l.length = ((shape.drop 1).take k).prod) ∧
    (∀ (k : ℕ) (l : List ℚ) (i : ℕ), 1 ≤ k → sched[k]? = some l →
      i < ((shape.drop 1).take k).prod → ∃ a, l[i]? = some a) := by
  obtain ⟨⟨hc0, hck, hcpar⟩, _⟩ := alphaSchedule_core shape sched h
  have hlen : ∀ (k : ℕ) (l : List ℚ), 1 ≤ k → sched[k]? = some l →
      l.length = ((shape.drop 1).take k).prod := fun k l hk hkl => (hck k l hk hkl).2
  refine ⟨hlen, ?_⟩
  intro k l i hk hkl hi
  have hil : i < l.length := by rw [hlen k l hk hkl]; exact hi
  exact ⟨l[i], List.getElem?_eq_getElem hil⟩

/-- Witness for `schedule_lengths` at shape `(2,2)`: level 1 has
`n_1 = 2` scheduled alphas. -/
theorem schedule_lengths_witness :
    [(4 : ℚ)/5, 3/5].length = ((([2, 2] : List ℕ).drop 1).take 1).prod :=
  (schedule_lengths [2, 2] [[1], [4/5, 3/5]] eval_alphaSchedule_22).1 1 [4/5, 3/5]
    (le_refl 1) rfl

end OnionRings
